import Mathlib

/-!
Verification of the SF (structural features) boundary segmenter,
`msaf/algorithms/sf/segmenter.py`, the Serrà-method pipeline: time-delay
embedding, recurrence matrix, circular-shift lag transform, anisotropic
smoothing, novelty curve, adaptive peak picking and boundary assembly.

Modelling conventions:
* Machine floats are modelled by exact rationals `ℚ`.
* Matrices are row lists (`List (List ℚ)`), as in numpy with rows first.
* Calls into external libraries (scipy's `distance.euclidean`,
  `filters.median_filter`, the 1-D `filters.gaussian_filter`, and librosa's
  `recurrence_matrix`) are abstracted as function parameters; the
  repository's own code is translated concretely.
* A Python exception, or a float result poisoned by NaN/inf from a
  division by zero, is modelled by `Option.none`.
-/

set_option maxHeartbeats 1000000

/-- Minimum reduction of numpy (`nc.min()`), modelled as a left fold.
The empty case (where numpy raises) is guarded by every caller. -/
def npMin : List ℚ → ℚ
  | [] => 0
  | x :: xs => xs.foldl min x

/-- Maximum reduction of numpy (`nc.max()`), modelled as a left fold. -/
def npMax : List ℚ → ℚ
  | [] => 0
  | x :: xs => xs.foldl max x

theorem foldl_min_le_init (xs : List ℚ) (a : ℚ) : xs.foldl min a ≤ a := by
  induction xs generalizing a with
  | nil => simp
  | cons x xs ih => exact le_trans (ih (min a x)) (min_le_left a x)

theorem foldl_min_le_mem (xs : List ℚ) (a x : ℚ) (hx : x ∈ xs) :
    xs.foldl min a ≤ x := by
  induction xs generalizing a with
  | nil => cases hx
  | cons y ys ih =>
    rcases List.mem_cons.mp hx with h | h
    · subst h
      exact le_trans (foldl_min_le_init ys (min a x)) (min_le_right a x)
    · exact ih (min a y) h

theorem foldl_min_mem (xs : List ℚ) (a : ℚ) :
    xs.foldl min a = a ∨ xs.foldl min a ∈ xs := by
  induction xs generalizing a with
  | nil => exact Or.inl rfl
  | cons y ys ih =>
    rcases ih (min a y) with h | h
    · rcases min_cases a y with ⟨hm, _⟩ | ⟨hm, _⟩
      · exact Or.inl (by rw [List.foldl_cons, h, hm])
      · exact Or.inr (by rw [List.foldl_cons, h, hm]; exact List.mem_cons_self y ys)
    · exact Or.inr (List.mem_cons_of_mem y h)

theorem init_le_foldl_max (xs : List ℚ) (a : ℚ) : a ≤ xs.foldl max a := by
  induction xs generalizing a with
  | nil => simp
  | cons x xs ih => exact le_trans (le_max_left a x) (ih (max a x))

theorem mem_le_foldl_max (xs : List ℚ) (a x : ℚ) (hx : x ∈ xs) :
    x ≤ xs.foldl max a := by
  induction xs generalizing a with
  | nil => cases hx
  | cons y ys ih =>
    rcases List.mem_cons.mp hx with h | h
    · subst h
      exact le_trans (le_max_right a x) (init_le_foldl_max ys (max a x))
    · exact ih (max a y) h


theorem foldl_max_mem (xs : List ℚ) (a : ℚ) :
    xs.foldl max a = a ∨ xs.foldl max a ∈ xs := by
  induction xs generalizing a with
  | nil => exact Or.inl rfl
  | cons y ys ih =>
    rcases ih (max a y) with h | h
    · rcases max_cases a y with ⟨hm, _⟩ | ⟨hm, _⟩
      · exact Or.inl (by rw [List.foldl_cons, h, hm])
      · exact Or.inr (by rw [List.foldl_cons, h, hm]; exact List.mem_cons_self y ys)
    · exact Or.inr (List.mem_cons_of_mem y h)

theorem npMin_le (l : List ℚ) (x : ℚ) (hx : x ∈ l) : npMin l ≤ x := by
  cases l with
  | nil => cases hx
  | cons y ys =>
    rcases List.mem_cons.mp hx with h | h
    · subst h; exact foldl_min_le_init ys x
    · exact foldl_min_le_mem ys y x h

theorem npMin_mem (l : List ℚ) (hl : l ≠ []) : npMin l ∈ l := by
  cases l with
  | nil => exact absurd rfl hl
  | cons y ys =>
    rcases foldl_min_mem ys y with h | h
    · rw [npMin, h]; exact List.mem_cons_self y ys
    · exact List.mem_cons_of_mem y (by rw [npMin]; exact h)

theorem le_npMax (l : List ℚ) (x : ℚ) (hx : x ∈ l) : x ≤ npMax l := by
  cases l with
  | nil => cases hx
  | cons y ys =>
    rcases List.mem_cons.mp hx with h | h
    · subst h; exact init_le_foldl_max ys x
    · exact mem_le_foldl_max ys y x h

theorem npMax_mem (l : List ℚ) (hl : l ≠ []) : npMax l ∈ l := by
  cases l with
  | nil => exact absurd rfl hl
  | cons y ys =>
    rcases foldl_max_mem ys y with h | h
    · rw [npMax, h]; exact List.mem_cons_self y ys
    · exact List.mem_cons_of_mem y (by rw [npMax]; exact h)

/-- Reading an entry of a `List.range`-built list. -/
theorem getD_range_map {α : Type} (f : ℕ → α) (n i : ℕ) (d : α) (h : i < n) :
    ((List.range n).map f).getD i d = f i := by
  rw [List.getD_eq_getElem?_getD, List.getElem?_map, List.getElem?_range h]
  rfl

/-- Source `circular_shift` (segmenter.py, lines 99-106): the time-lag
transform.  `L = np.zeros(X.shape)` and
`L[i, :] = [X[(i + j) % N, j] for j in range(N)]` for each row `i`,
where `N = X.shape[0]`. -/
def circular_shift (X : List (List ℚ)) : List (List ℚ) :=
  (List.range X.length).map (fun i =>
    (List.range X.length).map (fun j =>
      (X.getD ((i + j) % X.length) []).getD j 0))

/-- Inverse of the lag transform: subtract instead of add the row offset,
`Linv[i, j] = L[(i - j) mod N, j]` (written with `i + N - j` since `j < N`). -/
def circular_shift_inv (X : List (List ℚ)) : List (List ℚ) :=
  (List.range X.length).map (fun i =>
    (List.range X.length).map (fun j =>
      (X.getD ((i + X.length - j) % X.length) []).getD j 0))

/-- Entry of `circular_shift` at valid indices. -/
theorem circular_shift_entry (X : List (List ℚ)) (i j : ℕ)
    (hi : i < X.length) (hj : j < X.length) :
    ((circular_shift X).getD i []).getD j 0 =
      (X.getD ((i + j) % X.length) []).getD j 0 := by
  rw [circular_shift, getD_range_map _ _ _ _ hi, getD_range_map _ _ _ _ hj]

/-- Length of `circular_shift`. -/
theorem circular_shift_length (X : List (List ℚ)) :
    (circular_shift X).length = X.length := by
  simp [circular_shift]

/-- Row of `circular_shift` at a valid index. -/
theorem circular_shift_row (X : List (List ℚ)) (i : ℕ) (hi : i < X.length) :
    (circular_shift X).getD i [] =
      (List.range X.length).map (fun j =>
        (X.getD ((i + j) % X.length) []).getD j 0) := by
  rw [circular_shift, getD_range_map _ _ _ _ hi]

/-- C6: for every n x n matrix R the lag transform produces an n x n matrix L
with `L[i][j] = R[(i+j) mod n][j]` for all valid indices, and for n = 0 it
produces an empty matrix without error. -/
theorem circular_shift_spec (X : List (List ℚ)) (n : ℕ)
    (hlen : X.length = n) (hsq : ∀ r ∈ X, r.length = n) :
    (circular_shift X).length = n ∧
    (∀ i j, i < n → j < n →
      ((circular_shift X).getD i []).getD j 0 =
        (X.getD ((i + j) % n) []).getD j 0) ∧
    (n = 0 → circular_shift X = []) := by
  subst hlen
  refine ⟨circular_shift_length X, ?_, ?_⟩
  · intro i j hi hj
    exact circular_shift_entry X i j hi hj
  · intro h0
    simp [circular_shift, h0]

/-- Witness for C6 at the concrete 2 x 2 matrix [[1,2],[3,4]]. -/
theorem circular_shift_spec_witness :
    (circular_shift [[1, 2], [3, 4]]).length = 2 ∧
    (∀ i j, i < 2 → j < 2 →
      ((circular_shift [[(1 : ℚ), 2], [3, 4]]).getD i []).getD j 0 =
        (([[(1 : ℚ), 2], [3, 4]] : List (List ℚ)).getD ((i + j) % 2) []).getD j 0) ∧
    (2 = 0 → circular_shift [[(1 : ℚ), 2], [3, 4]] = []) :=
  circular_shift_spec [[1, 2], [3, 4]] 2 (by decide) (by decide)

/-- C3 counterexample: applying the circular shift twice does not recover the
original matrix; it fails already on a 3 x 3 binary matrix, since the double
shift reads `R[(i+2j) mod n][j]`, not `R[i][j]`. -/
theorem circular_shift_double_ne :
    circular_shift (circular_shift [[0, 1, 0], [0, 0, 0], [0, 0, 0]]) ≠
      ([[0, 1, 0], [0, 0, 0], [0, 0, 0]] : List (List ℚ)) := by
  decide

/-- C3 amended: the lag transform is invertible, and the round trip that holds
is with the inverse circular shift, which subtracts (rather than adds) the
column offset modulo n: for every square matrix, the inverse shift applied to
the shift recovers the matrix. -/
theorem circular_shift_left_inverse (X : List (List ℚ))
    (hsq : ∀ r ∈ X, r.length = X.length) :
    circular_shift_inv (circular_shift X) = X := by
  have hL : (circular_shift X).length = X.length := circular_shift_length X
  apply List.ext_getElem
  · simp [circular_shift_inv, hL]
  · intro i h1 h2
    have hi : i < X.length := h2
    have hN : 0 < X.length := lt_of_le_of_lt (Nat.zero_le i) hi
    unfold circular_shift_inv
    simp only [List.getElem_map, List.getElem_range, hL]
    apply List.ext_getElem
    · simp [hsq X[i] (List.getElem_mem hi)]
    · intro j hj1 hj2
      have hj : j < X.length := by
        rw [← hsq X[i] (List.getElem_mem hi)]
        exact hj2
      simp only [List.getElem_map, List.getElem_range]
      have hr : (i + X.length - j) % X.length < X.length := Nat.mod_lt _ hN
      rw [circular_shift_row X _ hr, getD_range_map _ _ _ _ hj]
      have harith : ((i + X.length - j) % X.length + j) % X.length = i := by
        rw [Nat.mod_add_mod,
          Nat.sub_add_cancel (le_of_lt (lt_of_lt_of_le hj (Nat.le_add_left _ _))),
          Nat.add_mod_right, Nat.mod_eq_of_lt hi]
      rw [harith, List.getD_eq_getElem X [] hi, List.getD_eq_getElem X[i] 0 hj2]

/-- Witness for the amended C3 at a concrete 3 x 3 binary matrix. -/
theorem circular_shift_left_inverse_witness :
    circular_shift_inv (circular_shift [[1, 0, 1], [0, 1, 0], [1, 1, 0]]) =
      ([[1, 0, 1], [0, 1, 0], [1, 1, 0]] : List (List ℚ)) :=
  circular_shift_left_inverse [[1, 0, 1], [0, 1, 0], [1, 1, 0]] (by decide)

/-- Source compute_nc, lines 70-72: `nc = np.zeros(N)` and
`nc[i] = distance.euclidean(X[i, :], X[i + 1, :])` for `i in xrange(N - 1)`,
leaving `nc[N-1] = 0`.  The scipy Euclidean distance is abstracted as
the parameter `eDist`. -/
def nc_raw (eDist : List ℚ → List ℚ → ℚ) (X : List (List ℚ)) : List ℚ :=
  (List.range X.length).map (fun i =>
    if i + 1 < X.length then eDist (X.getD i []) (X.getD (i + 1) []) else 0)

/-- Source compute_nc, line 75: `nc += np.abs(nc.min())`. -/
def nc_shifted (eDist : List ℚ → List ℚ → ℚ) (X : List (List ℚ)) : List ℚ :=
  (nc_raw eDist X).map (fun x => x + |npMin (nc_raw eDist X)|)

/-- Source compute_nc (segmenter.py, lines 65-77): novelty curve from the
structural features.  `nc.min()` on an empty array raises in numpy (modelled
as none), and when the post-shift maximum is zero the division
`nc /= nc.max()` yields non-finite values (0/0), also modelled as none. -/
def compute_nc (eDist : List ℚ → List ℚ → ℚ) (X : List (List ℚ)) :
    Option (List ℚ) :=
  if X.length = 0 then none
  else if npMax (nc_shifted eDist X) = 0 then none
  else some ((nc_shifted eDist X).map (fun x => x / npMax (nc_shifted eDist X)))

/-- C4 counterexample: at the concrete inputs with n = 1 and n = 0 frames,
compute_nc does not return an empty vector; the n = 0 case raises on the
empty-array min reduction and the n = 1 case divides by a zero maximum. -/
theorem compute_nc_short_counterexample :
    compute_nc (fun _ _ => 0) [[(0 : ℚ)]] = none ∧
    compute_nc (fun _ _ => 0) ([] : List (List ℚ)) = none ∧
    compute_nc (fun _ _ => 0) [[(0 : ℚ)]] ≠ some [] := by
  have h1 : compute_nc (fun _ _ => 0) [[(0 : ℚ)]] = none := by
    simp [compute_nc, nc_shifted, nc_raw, npMin, npMax]
  exact ⟨h1, rfl, by rw [h1]; exact fun hcon => Option.noConfusion hcon⟩

/-- C4 amended: for fewer than 2 rows compute_nc never returns an empty
vector; both degenerate sizes are failures (n = 0 raises on the empty min
reduction, n = 1 hits the zero-max normalization). -/
theorem compute_nc_short_fails (eDist : List ℚ → List ℚ → ℚ)
    (X : List (List ℚ)) (h : X.length < 2) : compute_nc eDist X = none := by
  cases X with
  | nil => rfl
  | cons r t =>
    cases t with
    | nil =>
      simp [compute_nc, nc_shifted, nc_raw, npMin, npMax]
    | cons a b =>
      exfalso
      simp [List.length] at h
      omega

/-- Witness for the amended C4 at a concrete one-row input. -/
theorem compute_nc_short_fails_witness :
    compute_nc (fun _ _ => 1) [[(5 : ℚ)]] = none :=
  compute_nc_short_fails (fun _ _ => 1) [[(5 : ℚ)]] (by decide)

theorem nc_raw_length (eDist : List ℚ → List ℚ → ℚ) (X : List (List ℚ)) :
    (nc_raw eDist X).length = X.length := by
  simp [nc_raw]

/-- C7: for a non-degenerate structural-feature matrix with at least 2 rows
(the non-degeneracy is exactly the success of the zero-max guard), the
normalized novelty curve has minimum 0, maximum 1, and all entries in [0,1].
The minimum of the raw curve is always 0 since its trailing entry is the
untouched 0 of `np.zeros(N)` and distances are nonnegative, so the shift is
a no-op and the division by the maximum rescales onto [0,1] exactly. -/
theorem compute_nc_normalized (eDist : List ℚ → List ℚ → ℚ)
    (X : List (List ℚ)) (hpos : ∀ a b, 0 ≤ eDist a b) (h2 : 2 ≤ X.length)
    (nc : List ℚ) (hnc : compute_nc eDist X = some nc) :
    npMin nc = 0 ∧ npMax nc = 1 ∧ ∀ x ∈ nc, 0 ≤ x ∧ x ≤ 1 := by
  have hN0 : ¬X.length = 0 := by omega
  rw [compute_nc, if_neg hN0] at hnc
  by_cases hmax : npMax (nc_shifted eDist X) = 0
  · rw [if_pos hmax] at hnc
    cases hnc
  · rw [if_neg hmax] at hnc
    have hncdef :
        nc = (nc_shifted eDist X).map
          (fun x => x / npMax (nc_shifted eDist X)) :=
      (Option.some.inj hnc).symm
    have hne0 : nc_raw eDist X ≠ [] := by
      intro hcon
      have := nc_raw_length eDist X
      rw [hcon] at this
      simp at this
      omega
    have hmem0 : ∀ x ∈ nc_raw eDist X, 0 ≤ x := by
      intro x hx
      rcases List.mem_map.mp hx with ⟨i, _, hfx⟩
      by_cases hcond : i + 1 < X.length
      · rw [← hfx, if_pos hcond]; exact hpos _ _
      · rw [← hfx, if_neg hcond]
    have hzero_mem : (0 : ℚ) ∈ nc_raw eDist X := by
      apply List.mem_map.mpr
      exact ⟨X.length - 1, List.mem_range.mpr (by omega), by rw [if_neg (by omega)]⟩
    have hmin0 : npMin (nc_raw eDist X) = 0 :=
      le_antisymm (npMin_le _ 0 hzero_mem) (hmem0 _ (npMin_mem _ hne0))
    have hshift : nc_shifted eDist X = nc_raw eDist X := by
      rw [nc_shifted, hmin0, abs_zero]
      simp
    rw [hshift] at hmax hncdef
    have hmxpos : 0 < npMax (nc_raw eDist X) :=
      lt_of_le_of_ne (hmem0 _ (npMax_mem _ hne0)) (Ne.symm hmax)
    have hncne : nc ≠ [] := by
      rw [hncdef]
      intro hcon
      exact hne0 (List.map_eq_nil_iff.mp hcon)
    have hge : ∀ x ∈ nc, 0 ≤ x := by
      intro x hx
      rw [hncdef] at hx
      rcases List.mem_map.mp hx with ⟨y, hy, hv⟩
      rw [← hv]
      exact div_nonneg (hmem0 y hy) (le_of_lt hmxpos)
    have hle1 : ∀ x ∈ nc, x ≤ 1 := by
      intro x hx
      rw [hncdef] at hx
      rcases List.mem_map.mp hx with ⟨y, hy, hv⟩
      rw [← hv]
      exact (div_le_one hmxpos).mpr (le_npMax _ y hy)
    have h0nc : (0 : ℚ) ∈ nc := by
      rw [hncdef]
      exact List.mem_map.mpr ⟨0, hzero_mem, zero_div _⟩
    have h1nc : (1 : ℚ) ∈ nc := by
      rw [hncdef]
      exact List.mem_map.mpr ⟨npMax (nc_raw eDist X), npMax_mem _ hne0, div_self hmax⟩
    refine ⟨?_, ?_, fun x hx => ⟨hge x hx, hle1 x hx⟩⟩
    · exact le_antisymm (npMin_le _ 0 h0nc) (hge _ (npMin_mem _ hncne))
    · exact le_antisymm (hle1 _ (npMax_mem _ hncne)) (le_npMax _ 1 h1nc)

/-- Witness for C7 at a concrete two-row input with unit distances. -/
theorem compute_nc_normalized_witness :
    npMin [(1 : ℚ), 0] = 0 ∧ npMax [(1 : ℚ), 0] = 1 ∧
    ∀ x ∈ [(1 : ℚ), 0], 0 ≤ x ∧ x ≤ 1 :=
  compute_nc_normalized (fun _ _ => 1) [[0], [1]]
    (fun _ _ => by norm_num) (by decide) [1, 0]
    (by simp [compute_nc, nc_shifted, nc_raw, npMin, npMax, List.range_succ])

/-- Source pick_peaks, lines 82-83: adaptive threshold
`th = filters.median_filter(nc, size=L) + nc.mean() * offset_denom`,
with scipy's median filter abstracted as `mfilter`.  The numpy mean is
`nc.sum() / len(nc)` (for an empty curve the threshold is never consulted,
since the peak loop is empty). -/
def pp_threshold (mfilter : List ℚ → ℕ → List ℚ) (nc : List ℚ) (L : ℕ)
    (offset_denom : ℚ) : List ℚ :=
  (mfilter nc L).map (fun x => x + nc.sum / (nc.length : ℚ) * offset_denom)

/-- Source pick_peaks (segmenter.py, lines 80-96): a frame
`i in xrange(1, nc.shape[0] - 1)` is appended iff
`nc[i-1] < nc[i] and nc[i] > nc[i+1]` and `nc[i] > th[i]`. -/
def pick_peaks (mfilter : List ℚ → ℕ → List ℚ) (nc : List ℚ) (L : ℕ)
    (offset_denom : ℚ) : List ℕ :=
  (List.range' 1 (nc.length - 2)).filter (fun i =>
    decide (nc.getD (i - 1) 0 < nc.getD i 0) &&
    decide (nc.getD (i + 1) 0 < nc.getD i 0) &&
    decide ((pp_threshold mfilter nc L offset_denom).getD i 0 < nc.getD i 0))

/-- C8: membership in the peak list is exactly the conjunction of the strict
local-maximum test and the adaptive-threshold test on the interior frames,
and consequently a tie with the previous sample never yields a peak. -/
theorem pick_peaks_iff (mfilter : List ℚ → ℕ → List ℚ) (nc : List ℚ)
    (L : ℕ) (od : ℚ) (hlen : (mfilter nc L).length = nc.length) :
    (∀ i, i ∈ pick_peaks mfilter nc L od ↔
      (1 ≤ i ∧ i + 1 < nc.length ∧
       nc.getD (i - 1) 0 < nc.getD i 0 ∧
       nc.getD (i + 1) 0 < nc.getD i 0 ∧
       (mfilter nc L).getD i 0 + nc.sum / (nc.length : ℚ) * od <
         nc.getD i 0)) ∧
    (∀ i, nc.getD (i - 1) 0 = nc.getD i 0 →
      i ∉ pick_peaks mfilter nc L od) := by
  have hth : ∀ i, i + 1 < nc.length →
      (pp_threshold mfilter nc L od).getD i 0 =
        (mfilter nc L).getD i 0 + nc.sum / (nc.length : ℚ) * od := by
    intro i hi
    have hi1 : i < (mfilter nc L).length := by omega
    have hi2 : i < ((mfilter nc L).map
        (fun x => x + nc.sum / (nc.length : ℚ) * od)).length := by
      simpa using hi1
    rw [pp_threshold, List.getD_eq_getElem _ _ hi2, List.getElem_map,
      List.getD_eq_getElem _ _ hi1]
  have key : ∀ i, i ∈ pick_peaks mfilter nc L od ↔
      (1 ≤ i ∧ i + 1 < nc.length ∧
       nc.getD (i - 1) 0 < nc.getD i 0 ∧
       nc.getD (i + 1) 0 < nc.getD i 0 ∧
       (mfilter nc L).getD i 0 + nc.sum / (nc.length : ℚ) * od <
         nc.getD i 0) := by
    intro i
    rw [pick_peaks, List.mem_filter, List.mem_range'_1]
    simp only [Bool.and_eq_true, decide_eq_true_eq]
    constructor
    · rintro ⟨⟨h1, h2⟩, ⟨ha, hb⟩, hc⟩
      have hib : i + 1 < nc.length := by omega
      rw [hth i hib] at hc
      exact ⟨h1, hib, ha, hb, hc⟩
    · rintro ⟨h1, h2, ha, hb, hc⟩
      rw [← hth i h2] at hc
      exact ⟨⟨h1, by omega⟩, ⟨ha, hb⟩, hc⟩
  refine ⟨key, ?_⟩
  intro i heq hmem
  have h := (key i).mp hmem
  rw [heq] at h
  exact lt_irrefl _ h.2.2.1

/-- Witness for C8 at a concrete three-sample curve with a zero filter. -/
theorem pick_peaks_iff_witness :
    (∀ i, i ∈ pick_peaks (fun l _ => l.map (fun _ => 0)) [(0 : ℚ), 1, 0] 3 0 ↔
      (1 ≤ i ∧ i + 1 < ([(0 : ℚ), 1, 0] : List ℚ).length ∧
       ([(0 : ℚ), 1, 0] : List ℚ).getD (i - 1) 0 <
         ([(0 : ℚ), 1, 0] : List ℚ).getD i 0 ∧
       ([(0 : ℚ), 1, 0] : List ℚ).getD (i + 1) 0 <
         ([(0 : ℚ), 1, 0] : List ℚ).getD i 0 ∧
       (([(0 : ℚ), 1, 0] : List ℚ).map (fun _ => 0)).getD i 0 +
         ([(0 : ℚ), 1, 0] : List ℚ).sum /
           (([(0 : ℚ), 1, 0] : List ℚ).length : ℚ) * 0 <
         ([(0 : ℚ), 1, 0] : List ℚ).getD i 0)) ∧
    (∀ i, ([(0 : ℚ), 1, 0] : List ℚ).getD (i - 1) 0 =
        ([(0 : ℚ), 1, 0] : List ℚ).getD i 0 →
      i ∉ pick_peaks (fun l _ => l.map (fun _ => 0)) [(0 : ℚ), 1, 0] 3 0) :=
  pick_peaks_iff (fun l _ => l.map (fun _ => 0)) [(0 : ℚ), 1, 0] 3 0
    (by simp)

/-- C10: the peak list is strictly increasing and every reported index is an
interior frame, never 0 and never the last frame. -/
theorem pick_peaks_sorted_bounded (mfilter : List ℚ → ℕ → List ℚ)
    (nc : List ℚ) (L : ℕ) (od : ℚ) :
    (pick_peaks mfilter nc L od).Sorted (· < ·) ∧
    ∀ i ∈ pick_peaks mfilter nc L od, 1 ≤ i ∧ i + 1 < nc.length := by
  constructor
  · exact (List.pairwise_lt_range' 1 (nc.length - 2)).filter _
  · intro i hi
    rw [pick_peaks, List.mem_filter, List.mem_range'_1] at hi
    omega

/-- Witness for C10 at a concrete curve with the identity filter. -/
theorem pick_peaks_sorted_bounded_witness :
    (pick_peaks (fun l _ => l) [(0 : ℚ), 1, 0] 16 1).Sorted (· < ·) ∧
    ∀ i ∈ pick_peaks (fun l _ => l) [(0 : ℚ), 1, 0] 16 1,
      1 ≤ i ∧ i + 1 < ([(0 : ℚ), 1, 0] : List ℚ).length :=
  pick_peaks_sorted_bounded (fun l _ => l) [(0 : ℚ), 1, 0] 16 1

/-- Sequencing of the per-row assignments of the embedding loop: the first
failing numpy row assignment aborts the whole computation. -/
def seqOption : List (Option (List ℚ)) → Option (List (List ℚ))
  | [] => some []
  | none :: _ => none
  | some r :: rest =>
    match seqOption rest with
    | none => none
    | some rs => some (r :: rs)

theorem seqOption_map_some {β : Type} (l : List β) (f : β → Option (List ℚ))
    (g : β → List ℚ) (h : ∀ x ∈ l, f x = some (g x)) :
    seqOption (l.map f) = some (l.map g) := by
  induction l with
  | nil => rfl
  | cons x xs ih =>
    rw [List.map_cons, List.map_cons, h x (List.mem_cons_self x xs)]
    rw [seqOption, ih (fun y hy => h y (List.mem_cons_of_mem x hy))]

/-- Number of embedded rows (segmenter.py, line 111):
`N = X.shape[0] - int(np.ceil(m))`.  A negative value makes `np.zeros`
raise, so only the nonnegative magnitude is kept here; the sign is checked
by `embedded_space` itself. -/
def es_rows (X : List (List ℚ)) (m : ℚ) : ℕ := ((X.length : ℤ) - ⌈m⌉).toNat

/-- Allocated row width (line 112): `int(np.ceil(X.shape[1] * m))`. -/
def es_width (X : List (List ℚ)) (m : ℚ) : ℕ :=
  (⌈((X.headD []).length : ℚ) * m⌉).toNat

/-- Remainder length (line 116): `rem = int((m % 1) * X.shape[1])`.
Python's `%` takes the mathematical fractional part and `int` truncates
toward zero, the floor on this nonnegative value. -/
def es_rem (X : List (List ℚ)) (m : ℚ) : ℕ :=
  (⌊Int.fract m * ((X.headD []).length : ℚ)⌋).toNat

/-- Row content (lines 117-118):
`np.concatenate((X[i:i+int(m), :].flatten(), X[i+int(m), :rem]))`, with
`int(m)` the floor of the nonnegative embedding order. -/
def embedded_row (X : List (List ℚ)) (m : ℚ) (i : ℕ) : List ℚ :=
  ((X.drop i).take (⌊m⌋).toNat).flatten ++
    (X.getD (i + (⌊m⌋).toNat) []).take (es_rem X m)

/-- Numpy row assignment `Y[i, :] = c` into a width-`w` row: succeeds when
the lengths agree, broadcasts a length-1 value across the row, and raises
otherwise (could not broadcast). -/
def np_row_assign (w : ℕ) (c : List ℚ) : Option (List ℚ) :=
  if c.length = w then some c
  else if c.length = 1 then some (List.replicate w (c.getD 0 0))
  else none

/-- Source embedded_space (segmenter.py, lines 109-119): time-delay
embedding.  `np.zeros` raises on a negative row count or width; each row of
the output is filled by a numpy row assignment of the concatenated block. -/
def embedded_space (X : List (List ℚ)) (m : ℚ) : Option (List (List ℚ)) :=
  if (X.length : ℤ) - ⌈m⌉ < 0 ∨ (⌈((X.headD []).length : ℚ) * m⌉ : ℤ) < 0 then
    none
  else
    seqOption ((List.range (es_rows X m)).map
      (fun i => np_row_assign (es_width X m) (embedded_row X m i)))

/-- C5 counterexample: at N = 3, D = 3, m = 3/2 (so `N > ceil(m)` and the
claim asserts a returned 1-row matrix), the allocated width is
`ceil(3 * 3/2) = 5` while the concatenated content has
`floor(m)*D + int((m mod 1)*D) = 3 + 1 = 4` entries, so the numpy row
assignment cannot broadcast and the call raises instead of returning. -/
theorem embedded_space_frac_counterexample :
    embedded_space [[1, 2, 3], [4, 5, 6], [7, 8, 9]] (3/2) = none := by
  have hceil : ⌈(3 : ℚ)/2⌉ = 2 := by rw [Int.ceil_eq_iff] ; norm_num
  have hceil2 : ⌈(3 : ℚ) * (3/2)⌉ = 5 := by rw [Int.ceil_eq_iff] ; norm_num
  have hfloor : ⌊(3 : ℚ)/2⌋ = 1 := by rw [Int.floor_eq_iff] ; norm_num
  have hfract : ⌊Int.fract ((3 : ℚ)/2) * 3⌋ = 1 := by
    rw [Int.fract, hfloor]
    rw [Int.floor_eq_iff] ; norm_num
  simp [embedded_space, es_rows, es_width, es_rem, embedded_row, np_row_assign,
    seqOption, hceil, hceil2, hfloor, hfract, List.range_succ]

/-- A non-integral remainder does not always raise: with D = 1, N = 3 and
m = 3/2 each content row has the single entry `X[i][0]` while the allocated
width is `ceil(1 * 3/2) = 2`, so numpy broadcasts the entry across the row
and the embedding returns duplicated columns instead of the claimed
concatenation (which would be the length-1 row itself). -/
theorem embedded_space_broadcast_example :
    embedded_space [[1], [2], [3]] (3/2) = some [[1, 1]] := by
  have hceil : ⌈(3 : ℚ)/2⌉ = 2 := by rw [Int.ceil_eq_iff] ; norm_num
  have hceil2 : ⌈(1 : ℚ) * (3/2)⌉ = 2 := by rw [Int.ceil_eq_iff] ; norm_num
  have hfloor : ⌊(3 : ℚ)/2⌋ = 1 := by rw [Int.floor_eq_iff] ; norm_num
  have hfract : ⌊Int.fract ((3 : ℚ)/2) * 1⌋ = 0 := by
    rw [Int.fract, hfloor]
    rw [Int.floor_eq_iff] ; norm_num
  simp [embedded_space, es_rows, es_width, es_rem, embedded_row, np_row_assign,
    seqOption, hceil, hceil2, hfloor, hfract, List.range_succ]

/-- C5 amended: when the fractional remainder length `(m mod 1) * D` is an
integer `r` (in particular for every integer order m, where r = 0), the
embedding succeeds for `N > ceil(m)` and returns `N - ceil(m)` rows; row i
concatenates the flattened block of `floor(m)` consecutive frames starting
at i with the first `r` entries of frame `i + floor(m)` (the remainder is
the truncation `int((m mod 1)*D)`, which is no rounding here), and every row
has exactly `floor(m)*D + r` columns, which for N=100, D=12, m=8 gives
92 rows of 96 columns.  When `(m mod 1) * D` is not an integer the
allocated width `ceil(D*m)` exceeds the content length, so the row
assignment cannot copy the concatenation verbatim: at N = 3, D = 3,
m = 3/2 it raises (the counterexample), and at D = 1, m = 3/2 the
single-entry content numpy-broadcasts across the width-2 row (the
broadcast example). -/
theorem embedded_space_spec (X : List (List ℚ)) (m : ℚ) (D : ℕ) (r : ℕ)
    (hD : (X.headD []).length = D)
    (hrect : ∀ row ∈ X, row.length = D)
    (hm : 1 ≤ m)
    (hN : ⌈m⌉ < (X.length : ℤ))
    (hr : Int.fract m * (D : ℚ) = (r : ℚ)) :
    ∃ Y, embedded_space X m = some Y ∧
      Y.length = X.length - (⌈m⌉).toNat ∧
      (∀ i < Y.length,
        Y.getD i [] =
          ((X.drop i).take (⌊m⌋).toNat).flatten ++
            (X.getD (i + (⌊m⌋).toNat) []).take r) ∧
      (∀ i < Y.length, (Y.getD i []).length = (⌊m⌋).toNat * D + r) := by
  have hm0 : (0 : ℚ) ≤ m := le_trans zero_le_one hm
  have hfm1 : 1 ≤ ⌊m⌋ := Int.le_floor.mpr (by exact_mod_cast hm)
  have hfmcm : ⌊m⌋ ≤ ⌈m⌉ := Int.floor_le_ceil m
  have hrD : r ≤ D := by
    have hfr : Int.fract m * (D : ℚ) ≤ (D : ℚ) := by
      calc Int.fract m * (D : ℚ) ≤ 1 * (D : ℚ) :=
            mul_le_mul_of_nonneg_right (le_of_lt (Int.fract_lt_one m))
              (by positivity)
        _ = (D : ℚ) := one_mul _
    rw [hr] at hfr
    exact_mod_cast hfr
  have hesr : es_rem X m = r := by
    rw [es_rem, hD, hr, Int.floor_natCast]
    exact Int.toNat_natCast r
  have hwidth : (⌈((X.headD []).length : ℚ) * m⌉ : ℤ) = D * ⌊m⌋ + r := by
    rw [hD]
    have hmsplit : (D : ℚ) * m = ((D * ⌊m⌋ + r : ℤ) : ℚ) := by
      calc (D : ℚ) * m = (D : ℚ) * ((⌊m⌋ : ℚ) + Int.fract m) := by
            rw [Int.floor_add_fract]
        _ = (D : ℚ) * (⌊m⌋ : ℚ) + Int.fract m * (D : ℚ) := by ring
        _ = (D : ℚ) * (⌊m⌋ : ℚ) + (r : ℚ) := by rw [hr]
        _ = ((D * ⌊m⌋ + r : ℤ) : ℚ) := by push_cast; ring
    rw [hmsplit, Int.ceil_intCast]
  have hguard :
      ¬((X.length : ℤ) - ⌈m⌉ < 0 ∨
        (⌈((X.headD []).length : ℚ) * m⌉ : ℤ) < 0) := by
    push_neg
    refine ⟨by omega, ?_⟩
    rw [hwidth]
    have hDf : (0 : ℤ) ≤ D * ⌊m⌋ := by positivity
    omega
  have hrowlen : ∀ i, i < es_rows X m →
      (embedded_row X m i).length = (⌊m⌋).toNat * D + r := by
    intro i hi
    rw [es_rows] at hi
    have hlt : i + (⌊m⌋).toNat < X.length := by omega
    rw [embedded_row, List.length_append]
    have htake : ((X.drop i).take (⌊m⌋).toNat).length = (⌊m⌋).toNat := by
      rw [List.length_take, List.length_drop]
      have hle : (⌊m⌋).toNat ≤ X.length - i := by omega
      exact min_eq_left hle
    have hflat :
        (((X.drop i).take (⌊m⌋).toNat).flatten).length = (⌊m⌋).toNat * D := by
      rw [List.length_flatten]
      have hrep : ((X.drop i).take (⌊m⌋).toNat).map List.length =
          List.replicate ((⌊m⌋).toNat) D := by
        apply List.eq_replicate_iff.mpr
        refine ⟨by rw [List.length_map]; exact htake, ?_⟩
        intro b hb
        rcases List.mem_map.mp hb with ⟨row, hrow, hrowb⟩
        rw [← hrowb]
        exact hrect row (List.drop_subset i X (List.take_subset _ _ hrow))
      rw [hrep, List.sum_replicate]
      simp [mul_comm]
    have hgetlen : (X.getD (i + (⌊m⌋).toNat) []).length = D := by
      rw [List.getD_eq_getElem _ _ hlt]
      exact hrect _ (List.getElem_mem hlt)
    rw [hflat, hesr, List.length_take, hgetlen, min_eq_left hrD]
  have hassign : ∀ i, i < es_rows X m →
      np_row_assign (es_width X m) (embedded_row X m i) =
        some (embedded_row X m i) := by
    intro i hi
    rw [np_row_assign, if_pos]
    rw [hrowlen i hi, es_width, hwidth]
    have hfmnat : ((⌊m⌋.toNat : ℤ)) = ⌊m⌋ := Int.toNat_of_nonneg (by omega)
    have hcast : (D : ℤ) * ⌊m⌋ + r = ((⌊m⌋.toNat * D + r : ℕ) : ℤ) := by
      push_cast
      rw [hfmnat]
      ring
    rw [hcast, Int.toNat_natCast]
  refine ⟨(List.range (es_rows X m)).map (embedded_row X m), ?_, ?_, ?_, ?_⟩
  · rw [embedded_space, if_neg hguard]
    exact seqOption_map_some _ _ _
      (fun i himem => hassign i (List.mem_range.mp himem))
  · simp only [List.length_map, List.length_range, es_rows]
    omega
  · intro i hi
    simp only [List.length_map, List.length_range] at hi
    rw [getD_range_map _ _ _ _ hi, embedded_row, hesr]
  · intro i hi
    simp only [List.length_map, List.length_range] at hi
    rw [getD_range_map _ _ _ _ hi]
    exact hrowlen i hi

/-- Witness for the amended C5 at N = 3, D = 2, m = 2 (so r = 0). -/
theorem embedded_space_spec_witness :
    ∃ Y, embedded_space [[1, 2], [3, 4], [5, 6]] 2 = some Y ∧
      Y.length = ([[1, 2], [3, 4], [5, 6]] : List (List ℚ)).length -
        (⌈(2 : ℚ)⌉).toNat ∧
      (∀ i < Y.length,
        Y.getD i [] =
          ((([[1, 2], [3, 4], [5, 6]] : List (List ℚ)).drop i).take
              (⌊(2 : ℚ)⌋).toNat).flatten ++
            (([[1, 2], [3, 4], [5, 6]] : List (List ℚ)).getD
              (i + (⌊(2 : ℚ)⌋).toNat) []).take 0) ∧
      (∀ i < Y.length, (Y.getD i []).length = (⌊(2 : ℚ)⌋).toNat * 2 + 0) :=
  embedded_space_spec [[1, 2], [3, 4], [5, 6]] 2 2 0 rfl (by decide)
    (by norm_num) (by norm_num) (by norm_num [Int.fract])

/-- Numpy transpose `X.T` of a rectangular row-major matrix. -/
def npT (X : List (List ℚ)) : List (List ℚ) :=
  (List.range ((X.headD []).length)).map (fun j => X.map (fun row => row.getD j 0))

/-- Source gaussian_filter (segmenter.py, lines 38-45): applies scipy's 1-D
Gaussian filter with sigma `M / 2` to every column (axis = 1) or row
(axis = 0); the scipy kernel itself is abstracted as `g1d`. -/
def gaussian_filter (g1d : List ℚ → ℚ → List ℚ) (X : List (List ℚ)) (M : ℚ)
    (axis : ℕ) : List (List ℚ) :=
  if axis = 1 then npT ((npT X).map (fun col => g1d col (M / 2)))
  else X.map (fun row => g1d row (M / 2))

/-- Configuration consumed by Segmenter.process (lines 133-141). -/
structure SFConfig where
  Mp_adaptive : ℕ
  offset_thres : ℚ
  M_gaussian : ℚ
  m_embedded : ℚ
  k_nearest : ℚ

/-- Modelled from the spec: the `_postprocess` step inherited from
`SegmenterInterface` (msaf/algorithms/interface.py) is not among the
sources; spec section 4.7 prescribes what it does: deduplicate the
assembled boundary times, sort them ascending, and emit one uninformative
constant label (-1) per resulting segment. -/
def postprocess (estTimes : List ℚ) : List ℚ × List ℚ :=
  let t := (List.insertionSort (fun a b => a ≤ b) estTimes).dedup
  (t, List.replicate (t.length - 1) (-1))

/-- Source Segmenter.process, lines 182-191: prepend frame index 0 and
append the last frame index, look every index up in frame_times (numpy
raises on an out-of-range index, modelled as none; for empty frame_times
the Python index -1 also raises), wrap with the absolute time sentinels 0
and duration, and hand to the spec-modelled postprocess. -/
def assemble_bounds (estBounds : List ℕ) (frameTimes : List ℚ) (dur : ℚ) :
    Option (List ℚ × List ℚ) :=
  let boundIdxs := [0] ++ estBounds ++ [frameTimes.length - 1]
  if boundIdxs.all (fun i => decide (i < frameTimes.length)) then
    some (postprocess
      ([0] ++ boundIdxs.map (fun i => frameTimes.getD i 0) ++ [dur]))
  else none

/-- Source Segmenter.process (segmenter.py, lines 123-206).  External
collaborators appear as parameters: `recur` is librosa's recurrence_matrix
(called on the transposed embedding with `k * int(F.shape[0])` neighbours),
`g1d` scipy's 1-D Gaussian kernel, `mfilter` scipy's median filter, `eDist`
scipy's Euclidean distance.  The two gaussian_filter calls of lines 166-167
mutate the transposed lag matrix in place, so the second call filters the
output of the first.  Tracks of at most 20 frames skip the whole pipeline
(line 147) and keep only the sentinel boundaries. -/
def Segmenter.process (recur : List (List ℚ) → ℚ → List (List ℚ))
    (g1d : List ℚ → ℚ → List ℚ) (mfilter : List ℚ → ℕ → List ℚ)
    (eDist : List ℚ → List ℚ → ℚ) (cfg : SFConfig)
    (F : List (List ℚ)) (frameTimes : List ℚ) (dur : ℚ) :
    Option (List ℚ × List ℚ) :=
  if 20 < F.length then
    match embedded_space F cfg.m_embedded with
    | none => none
    | some E =>
      match compute_nc eDist
        (gaussian_filter g1d
          (gaussian_filter g1d
            (npT (circular_shift (recur (npT E)
              (cfg.k_nearest * (F.length : ℚ)))))
            cfg.M_gaussian 1)
          1 0) with
      | none => none
      | some nc =>
        assemble_bounds
          ((pick_peaks mfilter nc cfg.Mp_adaptive cfg.offset_thres).map
            (fun i => i + (⌈cfg.m_embedded / 2⌉).toNat))
          frameTimes dur
  else
    assemble_bounds [] frameTimes dur

theorem postprocess_fst (l : List ℚ) :
    (postprocess l).1 = (List.insertionSort (fun a b => a ≤ b) l).dedup := rfl

theorem postprocess_snd (l : List ℚ) :
    (postprocess l).2 = List.replicate ((postprocess l).1.length - 1) (-1) := rfl

theorem postprocess_fst_sorted (l : List ℚ) :
    (postprocess l).1.Sorted (fun a b => a < b) := by
  rw [postprocess_fst]
  have hle : ((List.insertionSort (fun a b => a ≤ b) l).dedup).Pairwise
      (fun a b => a ≤ b) :=
    (List.sorted_insertionSort _ l).sublist (List.dedup_sublist _)
  have hne : ((List.insertionSort (fun a b => a ≤ b) l).dedup).Pairwise
      (fun a b => a ≠ b) :=
    List.nodup_dedup _
  exact (hle.and hne).imp (fun h => lt_of_le_of_ne h.1 h.2)

theorem postprocess_mem (l : List ℚ) (x : ℚ) :
    x ∈ (postprocess l).1 ↔ x ∈ l := by
  rw [postprocess_fst, List.mem_dedup]
  exact (List.perm_insertionSort _ l).mem_iff

theorem sorted_le_head_le (l : List ℚ) (hs : l.Sorted (fun a b => a ≤ b))
    (hne : l ≠ []) (x : ℚ) (hx : x ∈ l) : l.head hne ≤ x := by
  cases l with
  | nil => exact absurd rfl hne
  | cons a as =>
    rcases List.mem_cons.mp hx with h | h
    · rw [h]
      exact le_refl a
    · exact (List.sorted_cons.mp hs).1 x h

theorem sorted_le_le_getLast (l : List ℚ) (hs : l.Sorted (fun a b => a ≤ b))
    (hne : l ≠ []) (x : ℚ) (hx : x ∈ l) : x ≤ l.getLast hne := by
  induction l with
  | nil => exact absurd rfl hne
  | cons a as ih =>
    cases as with
    | nil =>
      rcases List.mem_cons.mp hx with h | h
      · rw [h]; rfl
      · cases h
    | cons b bs =>
      rw [List.getLast_cons (by simp : b :: bs ≠ [])]
      rcases List.mem_cons.mp hx with h | h
      · rw [h]
        exact (List.sorted_cons.mp hs).1 _ (List.getLast_mem _)
      · exact ih (List.sorted_cons.mp hs).2 (by simp) h

theorem sorted_lt_eq_pair (t : List ℚ) (a b : ℚ) (hab : a < b)
    (hs : t.Sorted (fun x y => x < y))
    (hmem : ∀ x, x ∈ t ↔ (x = a ∨ x = b)) : t = [a, b] := by
  cases t with
  | nil => exact absurd ((hmem a).mpr (Or.inl rfl)) (List.not_mem_nil a)
  | cons x ts =>
    cases ts with
    | nil =>
      exfalso
      have ha := (hmem a).mpr (Or.inl rfl)
      have hb := (hmem b).mpr (Or.inr rfl)
      simp at ha hb
      rw [ha, hb] at hab
      exact lt_irrefl x hab
    | cons y ts2 =>
      have hxy : x < y := (List.sorted_cons.mp hs).1 y (List.mem_cons_self _ _)
      have hsy := (List.sorted_cons.mp hs).2
      have hx := (hmem x).mp (List.mem_cons_self _ _)
      have hy := (hmem y).mp (List.mem_cons_of_mem _ (List.mem_cons_self _ _))
      have hxa : x = a := by
        rcases hx with h | h
        · exact h
        · exfalso
          rcases hy with h2 | h2
          · rw [h, h2] at hxy
            exact lt_asymm hab hxy
          · rw [h, h2] at hxy
            exact lt_irrefl b hxy
      have hyb : y = b := by
        rcases hy with h2 | h2
        · exfalso
          rw [hxa, h2] at hxy
          exact lt_irrefl a hxy
        · exact h2
      have hts2 : ts2 = [] := by
        apply List.eq_nil_iff_forall_not_mem.mpr
        intro z hz
        have hyz : y < z := (List.sorted_cons.mp hsy).1 z hz
        have hzm := (hmem z).mp
          (List.mem_cons_of_mem _ (List.mem_cons_of_mem _ hz))
        rw [hyb] at hyz
        rcases hzm with h3 | h3
        · rw [h3] at hyz
          exact lt_asymm hab hyz
        · rw [h3] at hyz
          exact lt_irrefl b hyz
      rw [hxa, hyb, hts2]

theorem assemble_bounds_spec (estBounds : List ℕ) (frameTimes : List ℚ)
    (dur : ℚ) (hft : ∀ t ∈ frameTimes, 0 ≤ t ∧ t ≤ dur) (hdur : 0 ≤ dur)
    (times labels : List ℚ)
    (h : assemble_bounds estBounds frameTimes dur = some (times, labels)) :
    times.Sorted (fun a b => a < b) ∧ times.head? = some 0 ∧
      times.getLast? = some dur ∧ labels.length + 1 = times.length := by
  simp only [assemble_bounds] at h
  split at h
  case isFalse => exact Option.noConfusion h
  case isTrue hcond =>
    have hpair := Option.some.inj h
    have hidx : ∀ i ∈ [0] ++ estBounds ++ [frameTimes.length - 1],
        i < frameTimes.length := by
      intro i hi
      have := List.all_eq_true.mp hcond i hi
      exact of_decide_eq_true this
    have htimes : times =
        (postprocess ([0] ++ ([0] ++ estBounds ++ [frameTimes.length - 1]).map
          (fun i => frameTimes.getD i 0) ++ [dur])).1 := by
      rw [hpair]
    have hlabels : labels =
        (postprocess ([0] ++ ([0] ++ estBounds ++ [frameTimes.length - 1]).map
          (fun i => frameTimes.getD i 0) ++ [dur])).2 := by
      rw [hpair]
    have hbound : ∀ x ∈ ([0] ++ ([0] ++ estBounds ++ [frameTimes.length - 1]).map
        (fun i => frameTimes.getD i 0) ++ [dur]), 0 ≤ x ∧ x ≤ dur := by
      intro x hx
      simp only [List.mem_append, List.mem_map, List.mem_singleton,
        List.mem_cons, List.not_mem_nil, or_false] at hx
      rcases hx with (hx | ⟨i, hi, hix⟩) | hx
      · rw [hx]; exact ⟨le_refl 0, hdur⟩
      · have hi2 : i ∈ [0] ++ estBounds ++ [frameTimes.length - 1] := by
          simp only [List.mem_append, List.mem_singleton, List.mem_cons,
            List.not_mem_nil, or_false]
          exact hi
        have hilt : i < frameTimes.length := hidx i hi2
        have : frameTimes.getD i 0 ∈ frameTimes := by
          rw [List.getD_eq_getElem _ _ hilt]
          exact List.getElem_mem hilt
        rw [← hix]
        exact hft _ this
      · rw [hx]; exact ⟨hdur, le_refl dur⟩
    have hmemt : ∀ x, x ∈ times ↔
        x ∈ ([0] ++ ([0] ++ estBounds ++ [frameTimes.length - 1]).map
          (fun i => frameTimes.getD i 0) ++ [dur]) := by
      intro x
      rw [htimes]
      exact postprocess_mem _ x
    have h0t : (0 : ℚ) ∈ times := (hmemt 0).mpr (by simp)
    have hdt : dur ∈ times := (hmemt dur).mpr (by simp)
    have htb : ∀ x ∈ times, 0 ≤ x ∧ x ≤ dur :=
      fun x hx => hbound x ((hmemt x).mp hx)
    have hts : times.Sorted (fun a b => a < b) := by
      rw [htimes]; exact postprocess_fst_sorted _
    have htle : times.Sorted (fun a b => a ≤ b) := hts.imp le_of_lt
    have htne : times ≠ [] := List.ne_nil_of_mem h0t
    have hhead : times.head htne = 0 :=
      le_antisymm (sorted_le_head_le times htle htne 0 h0t)
        (htb _ (List.head_mem htne)).1
    have hlast : times.getLast htne = dur :=
      le_antisymm (htb _ (List.getLast_mem htne)).2
        (sorted_le_le_getLast times htle htne dur hdt)
    have hlc : labels.length + 1 = times.length := by
      rw [hlabels, postprocess_snd, List.length_replicate, ← htimes]
      have : 0 < times.length := List.length_pos.mpr htne
      omega
    refine ⟨hts, ?_, ?_, hlc⟩
    · rw [List.head?_eq_head htne, hhead]
    · rw [List.getLast?_eq_getLast _ htne, hlast]

theorem assemble_bounds_label_count (estBounds : List ℕ)
    (frameTimes : List ℚ) (dur : ℚ) (times labels : List ℚ)
    (h : assemble_bounds estBounds frameTimes dur = some (times, labels)) :
    labels.length + 1 = times.length := by
  simp only [assemble_bounds] at h
  split at h
  case isFalse => exact Option.noConfusion h
  case isTrue hcond =>
    have hpair := Option.some.inj h
    have htimes : times =
        (postprocess ([0] ++ ([0] ++ estBounds ++ [frameTimes.length - 1]).map
          (fun i => frameTimes.getD i 0) ++ [dur])).1 := by
      rw [hpair]
    have hlabels : labels =
        (postprocess ([0] ++ ([0] ++ estBounds ++ [frameTimes.length - 1]).map
          (fun i => frameTimes.getD i 0) ++ [dur])).2 := by
      rw [hpair]
    have h0t : (0 : ℚ) ∈ times := by
      rw [htimes]
      exact (postprocess_mem _ 0).mpr (by simp)
    have htne : times ≠ [] := List.ne_nil_of_mem h0t
    rw [hlabels, postprocess_snd, List.length_replicate, ← htimes]
    have : 0 < times.length := List.length_pos.mpr htne
    omega

/-- C1: whenever process returns, the boundary-time list is strictly
increasing (hence duplicate-free), starts at the absolute time 0 and ends at
the duration, for any feature matrix, any frame times within [0, duration],
and any behaviour of the external collaborators. -/
theorem process_boundary_times (recur : List (List ℚ) → ℚ → List (List ℚ))
    (g1d : List ℚ → ℚ → List ℚ) (mfilter : List ℚ → ℕ → List ℚ)
    (eDist : List ℚ → List ℚ → ℚ) (cfg : SFConfig) (F : List (List ℚ))
    (frameTimes : List ℚ) (dur : ℚ) (_hm : 0 < cfg.m_embedded)
    (hft : ∀ t ∈ frameTimes, 0 ≤ t ∧ t ≤ dur) (hdur : 0 ≤ dur)
    (times labels : List ℚ)
    (hp : Segmenter.process recur g1d mfilter eDist cfg F frameTimes dur =
      some (times, labels)) :
    times.Sorted (fun a b => a < b) ∧ times.head? = some 0 ∧
      times.getLast? = some dur := by
  simp only [Segmenter.process] at hp
  split at hp
  · split at hp
    · exact Option.noConfusion hp
    · split at hp
      · exact Option.noConfusion hp
      · rcases assemble_bounds_spec _ _ _ hft hdur _ _ hp with ⟨h1, h2, h3, _⟩
        exact ⟨h1, h2, h3⟩
  · rcases assemble_bounds_spec _ _ _ hft hdur _ _ hp with ⟨h1, h2, h3, _⟩
    exact ⟨h1, h2, h3⟩

/-- Witness for C1 on a concrete empty-feature input (short-track path). -/
theorem process_boundary_times_witness :
    ([0, 1] : List ℚ).Sorted (fun a b => a < b) ∧
      ([0, 1] : List ℚ).head? = some 0 ∧
      ([0, 1] : List ℚ).getLast? = some 1 :=
  process_boundary_times (fun _ _ => []) (fun l _ => l) (fun l _ => l)
    (fun _ _ => 0) ⟨16, 1, 9, 8, 1⟩ [] [0, 1] 1
    (by decide) (by decide) (by decide) [0, 1] [-1] (by decide)

/-- C2: a track of at most 20 frames (such as the spec's 10-frame example)
skips the embedding-through-peak-picking stages and yields exactly the two
sentinel boundaries [0, duration] with the single constant label -1,
regardless of the configuration and of the external collaborators. -/
theorem process_short_track (recur : List (List ℚ) → ℚ → List (List ℚ))
    (g1d : List ℚ → ℚ → List ℚ) (mfilter : List ℚ → ℕ → List ℚ)
    (eDist : List ℚ → List ℚ → ℚ) (cfg : SFConfig) (F : List (List ℚ))
    (frameTimes : List ℚ) (dur : ℚ)
    (h20 : F.length ≤ 20) (hne : frameTimes ≠ [])
    (h0 : frameTimes.getD 0 0 = 0)
    (hl : frameTimes.getD (frameTimes.length - 1) 0 = dur)
    (hdur : 0 < dur) :
    Segmenter.process recur g1d mfilter eDist cfg F frameTimes dur =
      some ([0, dur], [-1]) := by
  have hnl : 0 < frameTimes.length := List.length_pos.mpr hne
  simp only [Segmenter.process]
  rw [if_neg (not_lt.mpr h20)]
  simp only [assemble_bounds]
  have hcond : (([0] ++ ([] : List ℕ) ++ [frameTimes.length - 1]).all
      (fun i => decide (i < frameTimes.length))) = true := by
    simp
    omega
  rw [if_pos hcond]
  have hmap : ([0] ++ ([0] ++ ([] : List ℕ) ++ [frameTimes.length - 1]).map
      (fun i => frameTimes.getD i 0) ++ [dur]) = [0, 0, dur, dur] := by
    simp
    constructor
    · rw [← List.getD_eq_getElem?_getD]
      exact h0
    · rw [← List.getD_eq_getElem?_getD]
      exact hl
  rw [hmap]
  have ht : (postprocess [0, 0, dur, dur]).1 = [0, dur] := by
    apply sorted_lt_eq_pair _ 0 dur hdur (postprocess_fst_sorted _)
    intro x
    rw [postprocess_mem]
    constructor
    · intro hx
      rcases List.mem_cons.mp hx with h | hx
      · exact Or.inl h
      rcases List.mem_cons.mp hx with h | hx
      · exact Or.inl h
      rcases List.mem_cons.mp hx with h | hx
      · exact Or.inr h
      rcases List.mem_cons.mp hx with h | hx
      · exact Or.inr h
      · cases hx
    · intro hx
      rcases hx with h | h
      · rw [h]; simp
      · rw [h]; simp
  have hpp : postprocess [0, 0, dur, dur] = ([0, dur], [-1]) := by
    have hsnd := postprocess_snd [0, 0, dur, dur]
    rw [ht] at hsnd
    have hsplit : postprocess [0, 0, dur, dur] =
        ((postprocess [0, 0, dur, dur]).1, (postprocess [0, 0, dur, dur]).2) :=
      rfl
    rw [hsplit, ht, hsnd]
    rfl
  rw [hpp]

/-- Witness for C2 at a concrete one-frame feature matrix. -/
theorem process_short_track_witness :
    Segmenter.process (fun _ _ => []) (fun l _ => l) (fun l _ => l)
      (fun _ _ => 0) ⟨16, 1, 9, 8, 1⟩ [[1]] [0, 2] 2 = some ([0, 2], [-1]) :=
  process_short_track (fun _ _ => []) (fun l _ => l) (fun l _ => l)
    (fun _ _ => 0) ⟨16, 1, 9, 8, 1⟩ [[1]] [0, 2] 2
    (by decide) (by decide) (by decide) (by decide) (by decide)

/-- C9: whenever process returns, the label list has exactly one entry less
than the boundary-time list, with no assumption on the input at all. -/
theorem process_label_count (recur : List (List ℚ) → ℚ → List (List ℚ))
    (g1d : List ℚ → ℚ → List ℚ) (mfilter : List ℚ → ℕ → List ℚ)
    (eDist : List ℚ → List ℚ → ℚ) (cfg : SFConfig) (F : List (List ℚ))
    (frameTimes : List ℚ) (dur : ℚ) (_hm : 0 < cfg.m_embedded)
    (times labels : List ℚ)
    (hp : Segmenter.process recur g1d mfilter eDist cfg F frameTimes dur =
      some (times, labels)) :
    labels.length + 1 = times.length := by
  simp only [Segmenter.process] at hp
  split at hp
  · split at hp
    · exact Option.noConfusion hp
    · split at hp
      · exact Option.noConfusion hp
      · exact assemble_bounds_label_count _ _ _ _ _ hp
  · exact assemble_bounds_label_count _ _ _ _ _ hp

/-- Witness for C9 on a concrete short-track input. -/
theorem process_label_count_witness :
    ([(-1 : ℚ)] : List ℚ).length + 1 = ([0, 3] : List ℚ).length :=
  process_label_count (fun _ _ => []) (fun l _ => l) (fun l _ => l)
    (fun _ _ => 0) ⟨16, 1, 9, 8, 1⟩ [] [0, 3] 3 (by decide) [0, 3] [-1]
    (by decide)
